import Mathlib

/-!
Verification development for the p8advent LZW string packer
(`p8advent/lzwlib.py`) and the companion Lua decoder embedded in that
module as the string constant `P8ADVENT_LUA`.

Python strings are modelled as `List Char` (the inputs of interest are
ASCII; `str.lower` is modelled on the ASCII range, which is the range the
character table supports).  Byte buffers (`bytearray`) are `List Nat`.
Python `dict`/`OrderedDict` objects whose values are always the insertion
position are modelled as `List (List Char)`: the code of an entry is its
position in the list.  Fallible operations return `Except`; the error
payload records exactly the state the Python object holds after the
exception escapes (the in-place mutations that already happened).
-/

/-- The pscii character table `CHAR_TABLE` of `lzwlib.py`: space, the
printable ASCII punctuation short of dollar, at-sign, backslash and
backtick, the digits, the lowercase letters, and six bracket characters,
ending with left brace, tilde, right brace (63 characters in total; the
apostrophe and the braces are built via `Char.ofNat` rather than
written literally: 39 is the apostrophe, 123 the left brace, 125 the
right brace, 126 the tilde). -/
def CHAR_TABLE : List Char :=
  " !\"#%".toList ++ [Char.ofNat 39] ++
  "()*+,-./0123456789:;<=>?abcdefghijklmnopqrstuvwxyz[]^_".toList ++
  [Char.ofNat 123, Char.ofNat 126, Char.ofNat 125]

/-- `CHAR_TABLE_FOR_SID = CHAR_TABLE + '@'` (64 characters). -/
def CHAR_TABLE_FOR_SID : List Char := CHAR_TABLE ++ ['@']

def LZW_STARTING_WIDTH : Nat := 7

def MAX_TABLE_ENTRY_COUNT : Nat := 4096

/-- ASCII fragment of Python `str.lower`. -/
def pyLower (c : Char) : Char :=
  if 'A' ≤ c ∧ c ≤ 'Z' then Char.ofNat (c.toNat + 32) else c

/-- ASCII whitespace, as matched by the regex class `\s`. -/
def isSpacePy (c : Char) : Bool :=
  c = ' ' ∨ c = '\t' ∨ c = '\n' ∨ c = '\r' ∨ c = Char.ofNat 11 ∨ c = Char.ofNat 12

/-- `re.sub(r'\s+', ' ', s)`: collapse every maximal whitespace run to a
single space.  The boolean records whether the previous character was
part of a whitespace run. -/
def collapseWs : Bool → List Char → List Char
  | _, [] => []
  | prevSpace, c :: rest =>
    if isSpacePy c then
      if prevSpace then collapseWs true rest
      else ' ' :: collapseWs true rest
    else c :: collapseWs false rest

/-- `re.sub(r'\s+', ' ', s.lower())` — the normalization applied by
`LzwLib.id_for_string` before lookup/insertion. -/
def pyNormalize (s : List Char) : List Char :=
  collapseWs false (s.map pyLower)

/-- Python `dict` lookup for the memo table `_string_id_map`
(keys are unique, so first match is the stored value). -/
def mapLookup : List (List Char × List Char) → List Char → Option (List Char)
  | [], _ => none
  | (k, v) :: rest, key => if k = key then some v else mapLookup rest key

/-- `self._dict[key]` for the shared dictionary: the value stored with a
key is always its insertion position, i.e. its list index. -/
def dictIdx : List (List Char) → List Char → Option Nat
  | [], _ => none
  | e :: rest, key => if e = key then some 0 else (dictIdx rest key).map (· + 1)

/-- Inner matching loop of `id_for_string`:
`while end_i < len(s) and s[start_i:end_i] in self._dict: end_i += 1`,
phrased over the remaining suffix `rem = s[start_i:]` with
`k = end_i - start_i`.  `fuel` bounds the iteration count; the guard
`k < rem.length` means `rem.length` iterations always suffice, so
`findK` below runs the loop to completion. -/
def findKAux (dict : List (List Char)) (rem : List Char) : Nat → Nat → Nat
  | 0, k => k
  | fuel + 1, k =>
    if k < rem.length ∧ rem.take k ∈ dict then findKAux dict rem fuel (k + 1) else k

def findK (dict : List (List Char)) (rem : List Char) : Nat :=
  findKAux dict rem rem.length 1

/-- One iteration of the `while start_i < len(s)` loop body of
`id_for_string`, for the remaining input `rem` (nonempty).  Returns
`(code, dict', width', consumed)` on success.  An error models the
`KeyError` Python raises at `code = self._dict[s[start_i:end_i]]`; the
payload is the dictionary at that moment (the insertion that already
happened is kept, exactly as the in-place mutation does).  The case
`k - 1 = 0` looks up the empty slice `s[start_i:start_i] = ''`, which is
never a dictionary key (keys are one base character or a longer inserted
slice), so Python raises `KeyError` there. -/
def lzwStep (dict : List (List Char)) (width : Nat) (rem : List Char) :
    Except (List (List Char)) (Nat × List (List Char) × Nat × Nat) :=
  if rem.take (findK dict rem) ∈ dict then
    match dictIdx dict (rem.take (findK dict rem)) with
    | some code => .ok (code, dict, width, findK dict rem)
    | none => .error dict
  else
    if dict.length < MAX_TABLE_ENTRY_COUNT then
      -- below capacity: `self._dict[s[start_i:end_i]] = len(self._dict)`,
      -- `created_new_entry = len(dict before)`; the width test
      -- `created_new_entry == 2**width - 1` is inlined on that value
      if findK dict rem - 1 = 0 then .error (dict ++ [rem.take (findK dict rem)])
      else
        match dictIdx (dict ++ [rem.take (findK dict rem)])
            (rem.take (findK dict rem - 1)) with
        | none => .error (dict ++ [rem.take (findK dict rem)])
        | some code =>
          .ok (code, dict ++ [rem.take (findK dict rem)],
               if dict.length = 2 ^ width - 1 then width + 1 else width,
               findK dict rem - 1)
    else
      -- at capacity: no insertion, `created_new_entry` stays `None`,
      -- so the width never changes on this path
      if findK dict rem - 1 = 0 then .error dict
      else
        match dictIdx dict (rem.take (findK dict rem - 1)) with
        | none => .error dict
        | some code => .ok (code, dict, width, findK dict rem - 1)

/-- Bit packer: the inner `for i in range(self._code_width)` loop that
packs one code least-significant-bit first into the byte buffer at bit
position `bp` (a fresh byte is appended whenever `bp` wraps to 0). -/
def packCode : Nat → Nat → List Nat → Nat → List Nat × Nat
  | 0, _, buf, bp => (buf, bp)
  | w + 1, code, buf, bp =>
    let buf1 := if bp = 0 then buf ++ [0] else buf
    let buf2 := buf1.dropLast ++ [buf1.getLast! ||| ((code % 2) <<< bp)]
    packCode w (code / 2) buf2 ((bp + 1) % 8)

/-- The `while start_i < len(s)` loop of `id_for_string`.  State:
shared dictionary, code width, code buffer + bit position, remaining
input, running code count.  Each successful step consumes at least one
character, so `rem.length` units of fuel run the loop to completion
(`encodeLoop` below); the fuel-exhausted branch is unreachable from
`encodeLoop` and its value is irrelevant to every theorem here.
The error payload is `(dictionary, width)` at the moment the `KeyError`
escapes. -/
def encodeLoopAux : Nat → List (List Char) → Nat → List Nat → Nat → List Char → Nat →
    Except (List (List Char) × Nat) (List (List Char) × Nat × List Nat × Nat × Nat)
  | 0, dict, width, buf, bp, rem, cc =>
    if rem = [] then .ok (dict, width, buf, bp, cc) else .error (dict, width)
  | fuel + 1, dict, width, buf, bp, rem, cc =>
    if rem = [] then .ok (dict, width, buf, bp, cc)
    else
      match lzwStep dict width rem with
      | .error dict' => .error (dict', width)
      | .ok (code, dict', width', k') =>
        let p := packCode width code buf bp
        encodeLoopAux fuel dict' width' p.1 p.2 (rem.drop k') (cc + 1)

def encodeLoop (dict : List (List Char)) (width : Nat) (buf : List Nat) (bp : Nat)
    (rem : List Char) (cc : Nat) :
    Except (List (List Char) × Nat) (List (List Char) × Nat × List Nat × Nat × Nat) :=
  encodeLoopAux rem.length dict width buf bp rem cc

/-- Render a string id: `CHAR_TABLE_FOR_SID[sid & 63]`,
`[(sid >> 6) & 63]`, `[(sid >> 12) & 63]` — three 6-bit groups,
least significant first. -/
def encodeSid (sid : Nat) : List Char :=
  [CHAR_TABLE_FOR_SID.getD (sid % 64) ' ',
   CHAR_TABLE_FOR_SID.getD (sid / 64 % 64) ' ',
   CHAR_TABLE_FOR_SID.getD (sid / 4096 % 64) ' ']

/-- Encoder state: the fields of the Python `LzwLib` object.  The
per-call scratch fields `_code_buffer`/`_code_bit_pos` are reset at the
start of every encoding, so they are local to `id_for_string` here. -/
structure LzwLib where
  start_addr : Nat
  end_addr : Nat
  string_id_map : List (List Char × List Char)
  data : List Nat
  dict : List (List Char)
  code_width : Nat
deriving DecidableEq

/-- `LzwLib.__init__`: the dictionary starts with the single-character
entries of `CHAR_TABLE`, entry `i` holding code `i`. -/
def LzwLib.init (start_addr end_addr : Nat) : LzwLib :=
  { start_addr := start_addr
    end_addr := end_addr
    string_id_map := []
    data := []
    dict := CHAR_TABLE.map (fun c => [c])
    code_width := LZW_STARTING_WIDTH }

/-- The default-argument instance `LzwLib()` (`start_addr=0, end_addr=0x4300`). -/
def lzwDefault : LzwLib := LzwLib.init 0 0x4300

/-- `LzwLib.id_for_string`.  On the Python `KeyError` path the error
payload is the object as left behind by the in-place mutations: the
dictionary (and any width growth of earlier iterations) is kept, the
record list and memo table are untouched. -/
def LzwLib.id_for_string (lib : LzwLib) (s0 : List Char) : Except LzwLib (LzwLib × List Char) :=
  let s := pyNormalize s0
  match mapLookup lib.string_id_map s with
  | some sid => .ok (lib, sid)
  | none =>
    let expected_table_id := lib.dict.length
    let expected_code_width := lib.code_width
    let sid := lib.start_addr + 2 + lib.data.length
    match encodeLoop lib.dict lib.code_width [] 0 s 0 with
    | .error (dict', width') =>
      .error { lib with
                 dict := dict'
                 code_width := width' }
    | .ok (dict', width', buf, _bp, code_count) =>
      let data' := lib.data ++
        [code_count % 256, code_count / 256,
         expected_table_id % 256, expected_table_id / 256,
         expected_code_width] ++ buf
      let encoded_sid := encodeSid sid
      .ok ({ lib with
               dict := dict'
               code_width := width'
               data := data'
               string_id_map := lib.string_id_map ++ [(s, encoded_sid)] },
           encoded_sid)

/-- `TooMuchDataError`, with the values interpolated into its message. -/
structure TooMuchData where
  size : Nat
  start_addr : Nat
  end_addr : Nat
deriving DecidableEq

/-- `LzwLib.as_bytes` (the `print` of debug statistics is I/O only and
elided).  `bytearray.append` of `string_count >> 8` is modelled as
`string_count / 256`; the two agree whenever the value fits a byte. -/
def LzwLib.as_bytes (lib : LzwLib) : Except TooMuchData (List Nat) :=
  let string_count := lib.string_id_map.length
  let data := [string_count % 256, string_count / 256] ++ lib.data
  if data.length > lib.end_addr - lib.start_addr then
    .error ⟨data.length, lib.start_addr, lib.end_addr⟩
  else
    .ok data

/-- `CHAR_TABLE.index(c)` (Python `str.index`): first index, or failure. -/
def charIdx : List Char → Char → Option Nat
  | [], _ => none
  | e :: rest, c => if e = c then some 0 else (charIdx rest c).map (· + 1)

/-- `encode_pscii`: indexes of the lowercased characters, failing with
`CharOutOfRange(char, pos)` at the first unsupported character. -/
def encodePsciiAux : Nat → List Char → Except (Char × Nat) (List Nat)
  | _, [] => .ok []
  | i, c :: rest =>
    match charIdx CHAR_TABLE c with
    | none => .error (c, i)
    | some code => (encodePsciiAux (i + 1) rest).map (code :: ·)

def encode_pscii (s : List Char) : Except (Char × Nat) (List Nat) :=
  encodePsciiAux 0 (s.map pyLower)

/-!
The companion decoder: the Lua program `P8ADVENT_LUA` from
`p8advent/lzwlib.py`, embedded statement by statement.  `mem` is the
Pico-8 memory holding the serialized corpus from address 0 (`peek` of an
address outside the list reads 0).  `t` is the character table `_tl.t`,
`w0` the initial width `_tl.w`.

The Lua source reads the global `tl` (not `_tl`) in the Phase-1 capacity
check `#_tl.d+#_tl.t<tl.mt`.  No global `tl` is ever assigned, so in Lua
this indexes `nil` and raises a runtime error the first time the check
is evaluated — which happens exactly when `p ~= nil`, i.e. from the
second code of a record on (Lua `and` short-circuits, so the first code
of a record does not reach it).  The parameter `tl_mt : Option Nat`
models that global: `none` is the program as written; `some mt` is the
evident intent `_tl.mt = mt` (the generated footer sets `_tl.mt` to the
maximum table entry count).
-/

/-- Read one `w`-bit code, least-significant bit first:
the `for bi=1,w do ... end` loop shared by both phases.  `sh` is
`bi - 1`, the amount the extracted bit is shifted left by. -/
def readCodeAux (mem : List Nat) : Nat → Nat → Nat → Nat → Nat → Nat × Nat × Nat
  | 0, a, bp, c, _sh => (c, a, bp)
  | w + 1, a, bp, c, sh =>
    let b := (mem.getD a 0 >>> bp) &&& 1
    let c := c ||| (b <<< sh)
    let bp := bp + 1
    if bp = 8 then readCodeAux mem w (a + 1) 0 c (sh + 1)
    else readCodeAux mem w a bp c (sh + 1)

def readCode (mem : List Nat) (w a bp : Nat) : Nat × Nat × Nat :=
  readCodeAux mem w a bp 0 0

/-- The code-resolution step shared by both phases:
`r = _tl:c(c)` for a base code, an overflow-table entry otherwise
(Lua index `c - #t + 1`, 1-based, is 0-based index `c - #t`). -/
def luaResolve (t : List Char) (d : List (List Char)) (c : Nat) : Option (List Char) :=
  if c ≤ t.length - 1 then some [t.getD c ' ']
  else d.get? (c - t.length)

/-- Phase 1, inner `while i>0` loop over one record's codes.
State: codes left `i`, address/bit position, overflow table `d`,
width `w`, previous resolution `p`.  The KwKwK branch assigns
`_tl.d[c-#_tl.t+1]`; in a well-formed stream that index is exactly
`#_tl.d+1`, i.e. an append — the embedding appends there and leaves `d`
unchanged at any other (unreachable) index below the length. -/
def luaPhase1Codes (t : List Char) (tl_mt : Option Nat) (mem : List Nat) :
    Nat → Nat → Nat → List (List Char) → Nat → Option (List Char) →
    Except String (List (List Char) × Nat × Nat × Nat)
  | 0, a, bp, d, w, _p => .ok (d, w, a, bp)
  | i + 1, a, bp, d, w, p =>
    let rab := readCode mem w a bp
    let c := rab.1
    let r0 := luaResolve t d c
    match p with
    | none =>
      luaPhase1Codes t tl_mt mem i rab.2.1 rab.2.2 d w r0
    | some pv =>
      match tl_mt with
      | none => .error "attempt to index a nil value (global tl)"
      | some mt =>
        if d.length + t.length < mt then
          match r0 with
          | some rv =>
            let d1 := d ++ [pv ++ [rv.headD ' ']]
            let w1 := if d1.length + t.length = 2 ^ w - 1 then w + 1 else w
            luaPhase1Codes t tl_mt mem i rab.2.1 rab.2.2 d1 w1 (some rv)
          | none =>
            let entry := pv ++ [pv.headD ' ']
            let d1 := if c - t.length = d.length then d ++ [entry] else d
            let w1 := if d1.length + t.length = 2 ^ w - 1 then w + 1 else w
            luaPhase1Codes t tl_mt mem i rab.2.1 rab.2.2 d1 w1 (some entry)
        else
          luaPhase1Codes t tl_mt mem i rab.2.1 rab.2.2 d w r0

/-- Phase 1, outer `while n>0` loop over the records.  Each record:
read its code count at `a`, skip the 5-byte header, replay the codes,
then round the bit position up to a byte boundary. -/
def luaPhase1Records (t : List Char) (tl_mt : Option Nat) (mem : List Nat) :
    Nat → Nat → List (List Char) → Nat → Except String (List (List Char) × Nat)
  | 0, _a, d, w => .ok (d, w)
  | n + 1, a, d, w =>
    let i := mem.getD a 0 + 256 * mem.getD (a + 1) 0
    match luaPhase1Codes t tl_mt mem i (a + 5) 0 d w none with
    | .error e => .error e
    | .ok (d1, w1, a1, bp1) =>
      let a2 := if bp1 ≠ 0 then a1 + 1 else a1
      luaPhase1Records t tl_mt mem n a2 d1 w1

/-- Phase 1 — Dictionary Bootstrap: the `if _tl.d == nil then ... end`
block of `_t`.  `a0` is `_tl.a`, `w0` the configured starting width. -/
def luaBootstrap (t : List Char) (tl_mt : Option Nat) (mem : List Nat) (a0 w0 : Nat) :
    Except String (List (List Char) × Nat) :=
  let n := mem.getD a0 0 + 256 * mem.getD (a0 + 1) 0
  luaPhase1Records t tl_mt mem n (a0 + 2) [] w0

/-- `_tl:o(c)`: position of `c` in the character table (0-based), or the
sentinel 63 for a character not in the table (which is how the padding
character `@` decodes). -/
def luaO (t : List Char) (c : Char) : Nat :=
  match charIdx t c with
  | some i => i
  | none => 63

/-- Phase 2, `while l>0` loop of `_t`: decode `l` codes of one record
against the completed overflow table (no growth; width restarts from the
record header and grows by the `tid == 2^w` rule).  Concatenating a nil
resolution is a Lua error. -/
def luaPhase2Codes (t : List Char) (d : List (List Char)) (mem : List Nat) :
    Nat → Nat → Nat → Nat → Nat → List Char → Except String (List Char)
  | 0, _a, _bp, _w, _tid, acc => .ok acc
  | l + 1, a, bp, w, tid, acc =>
    let rab := readCode mem w a bp
    let c := rab.1
    match luaResolve t d c with
    | none => .error "attempt to concatenate a nil value"
    | some rv =>
      let tid1 := tid + 1
      let w1 := if tid1 = 2 ^ w then w + 1 else w
      luaPhase2Codes t d mem l rab.2.1 rab.2.2 w1 tid1 (acc ++ rv)

/-- Phase 2 — Random-Access Decode of one three-character string id:
recover the record address from the id, read the record header
(code count, table id, width), then decode the codes. -/
def luaDecodeSid (t : List Char) (d : List (List Char)) (mem : List Nat) :
    List Char → Except String (List Char)
  | [c1, c2, c3] =>
    let a := luaO t c1 ||| (luaO t c2 <<< 6) ||| (luaO t c3 <<< 12)
    let l := mem.getD a 0 + 256 * mem.getD (a + 1) 0
    let tid := mem.getD (a + 2) 0 + 256 * mem.getD (a + 3) 0
    let w := mem.getD (a + 4) 0
    luaPhase2Codes t d mem l (a + 5) 0 w tid []
  | _ => .error "string id is not three characters"

/-!
Specification-level mirror of the encoder loop: the list of emitted
codes, each paired with the code width in force at its emission.
`encodeLoopAux` is proved equal to bit-packing this stream
(`encodeLoopAux_eq_codes` below), which is the bridge the layout and
width claims use.
-/

def lzwCodesAux : Nat → List (List Char) → Nat → List Char →
    Except (List (List Char) × Nat) (List (Nat × Nat) × List (List Char) × Nat)
  | 0, dict, width, rem =>
    if rem = [] then .ok ([], dict, width) else .error (dict, width)
  | fuel + 1, dict, width, rem =>
    if rem = [] then .ok ([], dict, width)
    else
      match lzwStep dict width rem with
      | .error dict' => .error (dict', width)
      | .ok (code, dict', width', k') =>
        match lzwCodesAux fuel dict' width' (rem.drop k') with
        | .error e => .error e
        | .ok (codes, d2, w2) => .ok ((code, width) :: codes, d2, w2)

def lzwCodes (dict : List (List Char)) (width : Nat) (rem : List Char) :
    Except (List (List Char) × Nat) (List (Nat × Nat) × List (List Char) × Nat) :=
  lzwCodesAux rem.length dict width rem

/-- Pack a stream of `(code, width)` pairs into a buffer, continuing at
bit position `bp`. -/
def packStream : List (Nat × Nat) → List Nat × Nat → List Nat × Nat
  | [], acc => acc
  | cw :: rest, acc => packStream rest (packCode cw.2 cw.1 acc.1 acc.2)

/-! Basic properties of the matching loop. -/

theorem findKAux_ge (dict : List (List Char)) (rem : List Char) :
    ∀ fuel k, k ≤ findKAux dict rem fuel k := by
  intro fuel
  induction fuel with
  | zero => intro k; simp [findKAux]
  | succ fuel ih =>
    intro k
    simp only [findKAux]
    split
    · exact le_trans (Nat.le_succ k) (ih (k + 1))
    · exact le_refl k

theorem findKAux_le (dict : List (List Char)) (rem : List Char) :
    ∀ fuel k, k ≤ rem.length → findKAux dict rem fuel k ≤ rem.length := by
  intro fuel
  induction fuel with
  | zero => intro k h; simpa [findKAux] using h
  | succ fuel ih =>
    intro k h
    simp only [findKAux]
    split
    · next hc => exact ih (k + 1) hc.1
    · exact h

theorem findKAux_take_mem (dict : List (List Char)) (rem : List Char) :
    ∀ fuel k j, k ≤ j → j < findKAux dict rem fuel k → rem.take j ∈ dict := by
  intro fuel
  induction fuel with
  | zero =>
    intro k j hkj hlt
    simp only [findKAux] at hlt
    omega
  | succ fuel ih =>
    intro k j hkj hlt
    simp only [findKAux] at hlt
    split at hlt
    · next hc =>
      rcases Nat.eq_or_lt_of_le hkj with h | h
      · exact h ▸ hc.2
      · exact ih (k + 1) j h hlt
    · omega

theorem findK_ge_one (dict : List (List Char)) (rem : List Char) : 1 ≤ findK dict rem :=
  findKAux_ge dict rem rem.length 1

theorem findK_le (dict : List (List Char)) (rem : List Char) (h : rem ≠ []) :
    findK dict rem ≤ rem.length :=
  findKAux_le dict rem rem.length 1 (by
    have : 0 < rem.length := List.length_pos.mpr h
    omega)

theorem findK_take_mem (dict : List (List Char)) (rem : List Char) (j : Nat)
    (h1 : 1 ≤ j) (h2 : j < findK dict rem) : rem.take j ∈ dict :=
  findKAux_take_mem dict rem rem.length 1 j h1 h2

/-! Basic properties of one encoder step. -/

theorem dictIdx_isSome_of_mem {dict : List (List Char)} {key : List Char}
    (h : key ∈ dict) : (dictIdx dict key).isSome := by
  induction dict with
  | nil => simp at h
  | cons e rest ih =>
    simp only [dictIdx]
    by_cases he : e = key
    · simp [he]
    · have hmem : key ∈ rest := by
        rcases List.mem_cons.mp h with h1 | h1
        · exact absurd h1.symm he
        · exact h1
      simp only [if_neg he]
      rcases Option.isSome_iff_exists.mp (ih hmem) with ⟨i, hi⟩
      simp [hi]

theorem lzwStep_pos {dict : List (List Char)} {width : Nat} {rem : List Char}
    {code : Nat} {dict' : List (List Char)} {width' k' : Nat}
    (h : lzwStep dict width rem = .ok (code, dict', width', k')) : 1 ≤ k' := by
  unfold lzwStep at h
  split at h
  · split at h
    · simp only [Except.ok.injEq, Prod.mk.injEq] at h
      obtain ⟨-, -, -, hk⟩ := h
      exact hk ▸ findK_ge_one dict rem
    · exact absurd h (by simp)
  · split at h
    · split at h
      · exact absurd h (by simp)
      · split at h
        · exact absurd h (by simp)
        · next hk1 _ =>
          simp only [Except.ok.injEq, Prod.mk.injEq] at h
          obtain ⟨-, -, -, hk⟩ := h
          omega
    · split at h
      · exact absurd h (by simp)
      · split at h
        · exact absurd h (by simp)
        · next hk1 _ =>
          simp only [Except.ok.injEq, Prod.mk.injEq] at h
          obtain ⟨-, -, -, hk⟩ := h
          omega

/-- One step changes the dictionary by appending at most one entry;
no entry is appended at or above the capacity bound. -/
theorem lzwStep_dict_shape (dict : List (List Char)) (width : Nat) (rem : List Char) :
    (∀ d', lzwStep dict width rem = .error d' →
      ∃ new, d' = dict ++ new ∧ new.length ≤ 1 ∧
        (MAX_TABLE_ENTRY_COUNT ≤ dict.length → new = [])) ∧
    (∀ code d' w' k', lzwStep dict width rem = .ok (code, d', w', k') →
      ∃ new, d' = dict ++ new ∧ new.length ≤ 1 ∧
        (MAX_TABLE_ENTRY_COUNT ≤ dict.length → new = [])) := by
  unfold lzwStep
  constructor
  · intro d' h
    split at h
    · split at h
      · exact absurd h (by simp)
      · simp only [Except.error.injEq] at h
        exact ⟨[], by simp [h.symm]⟩
    · split at h
      · next hlt =>
        split at h
        · simp only [Except.error.injEq] at h
          exact ⟨_, h.symm, by simp, fun hge => by omega⟩
        · split at h
          · simp only [Except.error.injEq] at h
            exact ⟨_, h.symm, by simp, fun hge => by omega⟩
          · exact absurd h (by simp)
      · split at h
        · simp only [Except.error.injEq] at h
          exact ⟨[], by simp [h.symm]⟩
        · split at h
          · simp only [Except.error.injEq] at h
            exact ⟨[], by simp [h.symm]⟩
          · exact absurd h (by simp)
  · intro code d' w' k' h
    split at h
    · split at h
      · simp only [Except.ok.injEq, Prod.mk.injEq] at h
        obtain ⟨-, hd, -, -⟩ := h
        exact ⟨[], by simp [hd.symm]⟩
      · exact absurd h (by simp)
    · split at h
      · next hlt =>
        split at h
        · exact absurd h (by simp)
        · split at h
          · exact absurd h (by simp)
          · simp only [Except.ok.injEq, Prod.mk.injEq] at h
            obtain ⟨-, hd, -, -⟩ := h
            exact ⟨_, hd.symm, by simp, fun hge => by omega⟩
      · split at h
        · exact absurd h (by simp)
        · split at h
          · exact absurd h (by simp)
          · simp only [Except.ok.injEq, Prod.mk.injEq] at h
            obtain ⟨-, hd, -, -⟩ := h
            exact ⟨[], by simp [hd.symm]⟩

/-- One step succeeds whenever every character of the remaining input is
present as a single-character dictionary entry (base alphabet always
present in reachable states). -/
theorem lzwStep_ok_of_singletons (dict : List (List Char)) (width : Nat)
    (rem : List Char) (hne : rem ≠ [])
    (hsing : ∀ c ∈ rem, [c] ∈ dict) :
    ∃ code dict' width' k', lzwStep dict width rem = .ok (code, dict', width', k') := by
  unfold lzwStep
  by_cases hmem : rem.take (findK dict rem) ∈ dict
  · rw [if_pos hmem]
    rcases Option.isSome_iff_exists.mp (dictIdx_isSome_of_mem hmem) with ⟨code, hcode⟩
    exact ⟨code, dict, width, findK dict rem, by rw [hcode]⟩
  · rw [if_neg hmem]
    have hk2 : 2 ≤ findK dict rem := by
      rcases Nat.lt_or_ge (findK dict rem) 2 with hlt | hge
      · exfalso
        have h1 : findK dict rem = 1 := by
          have := findK_ge_one dict rem
          omega
        apply hmem
        rw [h1]
        obtain ⟨c, rest, rfl⟩ : ∃ c rest, rem = c :: rest := by
          cases rem with
          | nil => exact absurd rfl hne
          | cons c rest => exact ⟨c, rest, rfl⟩
        simpa using hsing c (by simp)
      · exact hge
    have hprev : rem.take (findK dict rem - 1) ∈ dict :=
      findK_take_mem dict rem (findK dict rem - 1) (by omega) (by omega)
    have hk10 : ¬ (findK dict rem - 1 = 0) := by omega
    by_cases hcap : dict.length < MAX_TABLE_ENTRY_COUNT
    · rw [if_pos hcap, if_neg hk10]
      have hprev' : rem.take (findK dict rem - 1) ∈ dict ++ [rem.take (findK dict rem)] :=
        List.mem_append_left _ hprev
      rcases Option.isSome_iff_exists.mp (dictIdx_isSome_of_mem hprev') with ⟨code, hcode⟩
      rw [hcode]
      exact ⟨code, _, _, _, rfl⟩
    · rw [if_neg hcap, if_neg hk10]
      rcases Option.isSome_iff_exists.mp (dictIdx_isSome_of_mem hprev) with ⟨code, hcode⟩
      rw [hcode]
      exact ⟨code, dict, width, findK dict rem - 1, rfl⟩

/-- Width behaviour of one step: it never decreases, grows by at most 1,
and grows exactly when the step inserted a new entry whose code
(= the dictionary length before the insertion) is `2 ^ width - 1`. -/
theorem lzwStep_width {dict : List (List Char)} {width : Nat} {rem : List Char}
    {code : Nat} {dict' : List (List Char)} {width' k' : Nat}
    (h : lzwStep dict width rem = .ok (code, dict', width', k')) :
    (width' = width ∨ width' = width + 1) ∧
    (width' = width + 1 ↔ dict'.length = dict.length + 1 ∧ dict.length = 2 ^ width - 1) := by
  unfold lzwStep at h
  split at h
  · split at h
    · simp only [Except.ok.injEq, Prod.mk.injEq] at h
      obtain ⟨-, hd, hw, -⟩ := h
      subst hd; subst hw
      exact ⟨Or.inl rfl, by omega⟩
    · exact absurd h (by simp)
  · split at h
    · split at h
      · exact absurd h (by simp)
      · split at h
        · exact absurd h (by simp)
        · simp only [Except.ok.injEq, Prod.mk.injEq] at h
          obtain ⟨-, hd, hw, -⟩ := h
          subst hd; subst hw
          by_cases hcond : dict.length = 2 ^ width - 1
          · rw [if_pos hcond]
            exact ⟨Or.inr rfl, fun _ => ⟨by simp, hcond⟩, fun _ => rfl⟩
          · rw [if_neg hcond]
            refine ⟨Or.inl rfl, fun hcontra => absurd hcontra (by omega), ?_⟩
            rintro ⟨-, hc⟩
            exact absurd hc hcond
    · split at h
      · exact absurd h (by simp)
      · split at h
        · exact absurd h (by simp)
        · simp only [Except.ok.injEq, Prod.mk.injEq] at h
          obtain ⟨-, hd, hw, -⟩ := h
          subst hd; subst hw
          exact ⟨Or.inl rfl, by omega⟩

/-! Loop-level properties, all by structural induction on the fuel. -/

/-- Dictionary component of a loop result (both the success value and
the state carried by the `KeyError`). -/
def loopDict :
    Except (List (List Char) × Nat) (List (List Char) × Nat × List Nat × Nat × Nat) →
      List (List Char)
  | .error (d, _) => d
  | .ok (d, _, _, _, _) => d

/-- Width component of a loop result. -/
def loopWidth :
    Except (List (List Char) × Nat) (List (List Char) × Nat × List Nat × Nat × Nat) → Nat
  | .error (_, w) => w
  | .ok (_, w, _, _, _) => w

/-- The byte-packing loop is exactly the bit-packing of the emitted
`(code, width)` stream: `encodeLoopAux` refines `lzwCodesAux` composed
with `packStream`. -/
theorem encodeLoopAux_eq_codes :
    ∀ fuel dict width buf bp rem cc,
      encodeLoopAux fuel dict width buf bp rem cc =
        match lzwCodesAux fuel dict width rem with
        | .error e => .error e
        | .ok (codes, d2, w2) =>
          .ok (d2, w2, (packStream codes (buf, bp)).1, (packStream codes (buf, bp)).2,
               cc + codes.length) := by
  intro fuel
  induction fuel with
  | zero =>
    intro dict width buf bp rem cc
    by_cases hrem : rem = [] <;>
      simp [encodeLoopAux, lzwCodesAux, hrem, packStream]
  | succ fuel ih =>
    intro dict width buf bp rem cc
    by_cases hrem : rem = []
    · simp [encodeLoopAux, lzwCodesAux, hrem, packStream]
    · simp only [encodeLoopAux, lzwCodesAux, if_neg hrem]
      cases hstep : lzwStep dict width rem with
      | error d' => rfl
      | ok val =>
        obtain ⟨code, d', w', k'⟩ := val
        dsimp only
        rw [ih]
        cases hc : lzwCodesAux fuel d' w' (rem.drop k') with
        | error e => rfl
        | ok v =>
          obtain ⟨codes, d2, w2⟩ := v
          dsimp only
          simp only [packStream, List.length_cons]
          have harith : cc + 1 + codes.length = cc + (codes.length + 1) := by omega
          rw [harith]

theorem encodeLoop_eq_codes (dict : List (List Char)) (width : Nat)
    (buf : List Nat) (bp : Nat) (rem : List Char) (cc : Nat) :
    encodeLoop dict width buf bp rem cc =
      match lzwCodes dict width rem with
      | .error e => .error e
      | .ok (codes, d2, w2) =>
        .ok (d2, w2, (packStream codes (buf, bp)).1, (packStream codes (buf, bp)).2,
             cc + codes.length) :=
  encodeLoopAux_eq_codes rem.length dict width buf bp rem cc

/-- The code width never decreases across the loop. -/
theorem encodeLoopAux_width_mono :
    ∀ fuel dict width buf bp rem cc,
      width ≤ loopWidth (encodeLoopAux fuel dict width buf bp rem cc) := by
  intro fuel
  induction fuel with
  | zero =>
    intro dict width buf bp rem cc
    by_cases hrem : rem = [] <;> simp [encodeLoopAux, hrem, loopWidth]
  | succ fuel ih =>
    intro dict width buf bp rem cc
    by_cases hrem : rem = []
    · simp [encodeLoopAux, hrem, loopWidth]
    · simp only [encodeLoopAux, if_neg hrem]
      cases hstep : lzwStep dict width rem with
      | error d' => simp [loopWidth]
      | ok val =>
        obtain ⟨code, d', w', k'⟩ := val
        dsimp only
        have hw := (lzwStep_width hstep).1
        have := ih d' w' (packCode width code buf bp).1 (packCode width code buf bp).2
          (rem.drop k') (cc + 1)
        rcases hw with hw | hw <;> omega

/-- The loop only ever appends to the dictionary. -/
theorem encodeLoopAux_dict_ext :
    ∀ fuel dict width buf bp rem cc,
      ∃ new, loopDict (encodeLoopAux fuel dict width buf bp rem cc) = dict ++ new := by
  intro fuel
  induction fuel with
  | zero =>
    intro dict width buf bp rem cc
    by_cases hrem : rem = [] <;> exact ⟨[], by simp [encodeLoopAux, hrem, loopDict]⟩
  | succ fuel ih =>
    intro dict width buf bp rem cc
    by_cases hrem : rem = []
    · exact ⟨[], by simp [encodeLoopAux, hrem, loopDict]⟩
    · simp only [encodeLoopAux, if_neg hrem]
      cases hstep : lzwStep dict width rem with
      | error d' =>
        rcases (lzwStep_dict_shape dict width rem).1 d' hstep with ⟨new, hnew, -, -⟩
        exact ⟨new, by simp [loopDict, hnew]⟩
      | ok val =>
        obtain ⟨code, d', w', k'⟩ := val
        rcases (lzwStep_dict_shape dict width rem).2 code d' w' k' hstep with ⟨new, hnew, -, -⟩
        rcases ih d' w' (packCode width code buf bp).1 (packCode width code buf bp).2
          (rem.drop k') (cc + 1) with ⟨new2, hnew2⟩
        exact ⟨new ++ new2, by dsimp only; rw [hnew2, hnew, List.append_assoc]⟩

/-- Below the capacity bound the dictionary length stays below the
bound; at or above it, the dictionary is frozen. -/
theorem encodeLoopAux_capacity :
    ∀ fuel dict width buf bp rem cc,
      (dict.length ≤ MAX_TABLE_ENTRY_COUNT →
        (loopDict (encodeLoopAux fuel dict width buf bp rem cc)).length ≤
          MAX_TABLE_ENTRY_COUNT) ∧
      (MAX_TABLE_ENTRY_COUNT ≤ dict.length →
        loopDict (encodeLoopAux fuel dict width buf bp rem cc) = dict) := by
  intro fuel
  induction fuel with
  | zero =>
    intro dict width buf bp rem cc
    by_cases hrem : rem = [] <;>
      exact ⟨fun h => by simpa [encodeLoopAux, hrem, loopDict] using h,
             fun _ => by simp [encodeLoopAux, hrem, loopDict]⟩
  | succ fuel ih =>
    intro dict width buf bp rem cc
    by_cases hrem : rem = []
    · exact ⟨fun h => by simpa [encodeLoopAux, hrem, loopDict] using h,
             fun _ => by simp [encodeLoopAux, hrem, loopDict]⟩
    · simp only [encodeLoopAux, if_neg hrem]
      cases hstep : lzwStep dict width rem with
      | error d' =>
        rcases (lzwStep_dict_shape dict width rem).1 d' hstep with ⟨new, hnew, hlen, hfull⟩
        constructor
        · intro hle
          simp only [loopDict, hnew, List.length_append]
          rcases Nat.eq_or_lt_of_le hle with heq | hlt
          · rw [hfull (le_of_eq heq.symm)]
            simpa using hle
          · omega
        · intro hge
          simp [loopDict, hnew, hfull hge]
      | ok val =>
        obtain ⟨code, d', w', k'⟩ := val
        rcases (lzwStep_dict_shape dict width rem).2 code d' w' k' hstep with
          ⟨new, hnew, hlen, hfull⟩
        have ihs := ih d' w' (packCode width code buf bp).1 (packCode width code buf bp).2
          (rem.drop k') (cc + 1)
        dsimp only
        constructor
        · intro hle
          apply ihs.1
          rcases Nat.eq_or_lt_of_le hle with heq | hlt
          · rw [hnew, hfull (le_of_eq heq.symm)]
            simpa using hle
          · rw [hnew]
            simp only [List.length_append]
            omega
        · intro hge
          rw [ihs.2 (by rw [hnew, hfull hge]; simpa using hge), hnew, hfull hge,
             List.append_nil]

/-- The loop succeeds whenever every remaining character has its
singleton in the dictionary. -/
theorem encodeLoopAux_ok_of_singletons :
    ∀ fuel rem dict width buf bp cc,
      rem.length ≤ fuel →
      (∀ c ∈ rem, [c] ∈ dict) →
      ∃ d' w' buf' bp' cc',
        encodeLoopAux fuel dict width buf bp rem cc = .ok (d', w', buf', bp', cc') := by
  intro fuel
  induction fuel with
  | zero =>
    intro rem dict width buf bp cc hlen _hsing
    have hrem : rem = [] := List.length_eq_zero.mp (by omega)
    exact ⟨dict, width, buf, bp, cc, by simp [encodeLoopAux, hrem]⟩
  | succ fuel ih =>
    intro rem dict width buf bp cc hlen hsing
    by_cases hrem : rem = []
    · exact ⟨dict, width, buf, bp, cc, by simp [encodeLoopAux, hrem]⟩
    · rcases lzwStep_ok_of_singletons dict width rem hrem hsing with
        ⟨code, d', w', k', hstep⟩
      have hk := lzwStep_pos hstep
      rcases (lzwStep_dict_shape dict width rem).2 code d' w' k' hstep with ⟨new, hnew, -, -⟩
      have hsing' : ∀ c ∈ rem.drop k', [c] ∈ d' := fun c hc => by
        rw [hnew]
        exact List.mem_append_left _ (hsing c (List.drop_subset k' rem hc))
      have hlen' : (rem.drop k').length ≤ fuel := by
        have h0 : 0 < rem.length := List.length_pos.mpr hrem
        simp only [List.length_drop]
        omega
      rcases ih (rem.drop k') d' w' (packCode width code buf bp).1
        (packCode width code buf bp).2 (cc + 1) hlen' hsing' with
        ⟨d2, w2, buf2, bp2, cc2, hok⟩
      refine ⟨d2, w2, buf2, bp2, cc2, ?_⟩
      simp only [encodeLoopAux, if_neg hrem, hstep]
      exact hok

/-- Take/dropLast bookkeeping: dropping the last character of a prefix
of length `k ≤ l.length` is the prefix of length `k - 1`. -/
theorem take_dropLast (l : List Char) (k : Nat) (hk : k ≤ l.length) :
    (l.take k).dropLast = l.take (k - 1) := by
  rw [List.dropLast_eq_take, List.take_take, List.length_take]
  congr 1
  omega

/-- Shape of a successful step with respect to insertions: either
nothing was inserted, or exactly one entry was appended, that entry has
length at least 2, and its prefix without the last character was already
present in the dictionary. -/
theorem lzwStep_insert_shape {dict : List (List Char)} {width : Nat} {rem : List Char}
    {code : Nat} {d' : List (List Char)} {w' k' : Nat}
    (hne : rem ≠ [])
    (h : lzwStep dict width rem = .ok (code, d', w', k')) :
    d' = dict ∨ ∃ e, d' = dict ++ [e] ∧ 2 ≤ e.length ∧ e.dropLast ∈ dict := by
  unfold lzwStep at h
  split at h
  · split at h
    · simp only [Except.ok.injEq, Prod.mk.injEq] at h
      exact Or.inl h.2.1.symm
    · exact absurd h (by simp)
  · split at h
    · split at h
      · exact absurd h (by simp)
      · split at h
        · exact absurd h (by simp)
        · next hk1 _ =>
          simp only [Except.ok.injEq, Prod.mk.injEq] at h
          obtain ⟨-, hd, -, -⟩ := h
          refine Or.inr ⟨rem.take (findK dict rem), hd.symm, ?_, ?_⟩
          · have hle := findK_le dict rem hne
            have hge := findK_ge_one dict rem
            rw [List.length_take]
            omega
          · have hle := findK_le dict rem hne
            rw [take_dropLast rem (findK dict rem) hle]
            exact findK_take_mem dict rem (findK dict rem - 1) (by omega) (by omega)
    · split at h
      · exact absurd h (by simp)
      · split at h
        · exact absurd h (by simp)
        · simp only [Except.ok.injEq, Prod.mk.injEq] at h
          exact Or.inl h.2.1.symm

/-- Invariant of the entries the loop adds: each is at least two
characters long, its prefix without the last character already belongs
to the dictionary as it stood at the moment of insertion, and entries
are appended in order (so their codes are the consecutive positions
following the pre-existing entries). -/
theorem encodeLoopAux_new_entries :
    ∀ fuel rem dict width buf bp cc d' w' buf' bp' cc',
      encodeLoopAux fuel dict width buf bp rem cc = .ok (d', w', buf', bp', cc') →
      ∃ new, d' = dict ++ new ∧
        ∀ i, i < new.length →
          2 ≤ (new.getD i []).length ∧
          (new.getD i []).dropLast ∈ dict ++ new.take i := by
  intro fuel
  induction fuel with
  | zero =>
    intro rem dict width buf bp cc d' w' buf' bp' cc' h
    by_cases hrem : rem = []
    · simp only [encodeLoopAux, if_pos hrem, Except.ok.injEq, Prod.mk.injEq] at h
      exact ⟨[], by simp [h.1.symm], by simp⟩
    · simp [encodeLoopAux, if_neg hrem] at h
  | succ fuel ih =>
    intro rem dict width buf bp cc d' w' buf' bp' cc' h
    by_cases hrem : rem = []
    · simp only [encodeLoopAux, if_pos hrem, Except.ok.injEq, Prod.mk.injEq] at h
      exact ⟨[], by simp [h.1.symm], by simp⟩
    · simp only [encodeLoopAux, if_neg hrem] at h
      cases hstep : lzwStep dict width rem with
      | error d1 => rw [hstep] at h; exact absurd h (by simp)
      | ok val =>
        obtain ⟨code, d1, w1, k'⟩ := val
        rw [hstep] at h
        dsimp only at h
        rcases ih (rem.drop k') d1 w1 (packCode width code buf bp).1
          (packCode width code buf bp).2 (cc + 1) d' w' buf' bp' cc' h with
          ⟨new2, hnew2, hprops⟩
        rcases lzwStep_insert_shape hrem hstep with hsame | ⟨e, he, helen, hedrop⟩
        · subst hsame
          exact ⟨new2, hnew2, hprops⟩
        · subst he
          refine ⟨e :: new2, by rw [hnew2, List.append_assoc]; rfl, ?_⟩
          intro i hi
          cases i with
          | zero =>
            refine ⟨by simpa using helen, ?_⟩
            simpa using hedrop
          | succ i =>
            have hi2 : i < new2.length := by simpa using hi
            rcases hprops i hi2 with ⟨hlen2, hmem2⟩
            refine ⟨by simpa using hlen2, ?_⟩
            simp only [List.getD_cons_succ, List.take_succ_cons]
            have : dict ++ e :: new2.take i = (dict ++ [e]) ++ new2.take i := by
              rw [List.append_assoc]; rfl
            rw [this]
            exact hmem2

/-! Object-level consequences for `LzwLib.id_for_string`. -/

/-- Code width of the encoder after a call, whether it succeeded or
raised (the raised call keeps the in-place mutations). -/
def widthAfter : Except LzwLib (LzwLib × List Char) → Nat
  | .error l => l.code_width
  | .ok (l, _) => l.code_width

/-- Shared dictionary after a call. -/
def dictAfter : Except LzwLib (LzwLib × List Char) → List (List Char)
  | .error l => l.dict
  | .ok (l, _) => l.dict

/-- Length of the record list after a call. -/
def dataLenAfter : Except LzwLib (LzwLib × List Char) → Nat
  | .error l => l.data.length
  | .ok (l, _) => l.data.length

/-- The serialized record of one string, as described by the byte
layout: code count (u16 LE), table snapshot (u16 LE), starting width
(u8), then the packed codes. -/
structure StringRecord where
  codeCount : Nat
  tableSnapshot : Nat
  startWidth : Nat
  packedCodes : List Nat
deriving DecidableEq

def recordBytes (r : StringRecord) : List Nat :=
  [r.codeCount % 256, r.codeCount / 256,
   r.tableSnapshot % 256, r.tableSnapshot / 256,
   r.startWidth] ++ r.packedCodes

/-- A call on a string whose normal form is not yet memoized, whose
code stream is `codes`: the full success equation.  The new record is
exactly `recordBytes` of the snapshot header plus the packed stream, and
the returned id is the rendered offset `start_addr + 2 + len(data)`. -/
theorem id_for_string_fresh (lib : LzwLib) (s : List Char)
    (codes : List (Nat × Nat)) (d2 : List (List Char)) (w2 : Nat)
    (hm : mapLookup lib.string_id_map (pyNormalize s) = none)
    (hc : lzwCodes lib.dict lib.code_width (pyNormalize s) = .ok (codes, d2, w2)) :
    lib.id_for_string s = .ok
      ({ lib with
           dict := d2
           code_width := w2
           data := lib.data ++
             recordBytes ⟨codes.length, lib.dict.length, lib.code_width,
                          (packStream codes ([], 0)).1⟩
           string_id_map := lib.string_id_map ++
             [(pyNormalize s, encodeSid (lib.start_addr + 2 + lib.data.length))] },
       encodeSid (lib.start_addr + 2 + lib.data.length)) := by
  simp only [LzwLib.id_for_string]
  rw [hm]
  dsimp only
  rw [encodeLoop_eq_codes, hc]
  dsimp only [recordBytes]
  rw [Nat.zero_add, List.append_assoc]

/-- A call on a string whose normal form is not yet memoized and whose
code stream raises: the failure equation (dictionary and width keep the
mutations, record list and memo are untouched). -/
theorem id_for_string_fresh_err (lib : LzwLib) (s : List Char)
    (d2 : List (List Char)) (w2 : Nat)
    (hm : mapLookup lib.string_id_map (pyNormalize s) = none)
    (hc : lzwCodes lib.dict lib.code_width (pyNormalize s) = .error (d2, w2)) :
    lib.id_for_string s = .error { lib with dict := d2, code_width := w2 } := by
  simp only [LzwLib.id_for_string]
  rw [hm]
  dsimp only
  rw [encodeLoop_eq_codes, hc]

/-- The code width never decreases across a call. -/
theorem id_for_string_width_mono (lib : LzwLib) (s : List Char) :
    lib.code_width ≤ widthAfter (lib.id_for_string s) := by
  simp only [LzwLib.id_for_string]
  cases hm : mapLookup lib.string_id_map (pyNormalize s) with
  | some sid => simp [widthAfter]
  | none =>
    dsimp only
    have hmono : lib.code_width ≤
        loopWidth (encodeLoop lib.dict lib.code_width [] 0 (pyNormalize s) 0) :=
      encodeLoopAux_width_mono (pyNormalize s).length lib.dict
        lib.code_width [] 0 (pyNormalize s) 0
    cases he : encodeLoop lib.dict lib.code_width [] 0 (pyNormalize s) 0 with
    | error e =>
      obtain ⟨d2, w2⟩ := e
      rw [he] at hmono
      simpa [widthAfter, loopWidth] using hmono
    | ok v =>
      obtain ⟨d2, w2, buf, bp, cc⟩ := v
      rw [he] at hmono
      simpa [widthAfter, loopWidth] using hmono

/-- The dictionary only grows across a call, stays within the capacity
bound, and is frozen once the bound is reached. -/
theorem id_for_string_dict (lib : LzwLib) (s : List Char) :
    (∃ new, dictAfter (lib.id_for_string s) = lib.dict ++ new) ∧
    (lib.dict.length ≤ MAX_TABLE_ENTRY_COUNT →
      (dictAfter (lib.id_for_string s)).length ≤ MAX_TABLE_ENTRY_COUNT) ∧
    (MAX_TABLE_ENTRY_COUNT ≤ lib.dict.length →
      dictAfter (lib.id_for_string s) = lib.dict) := by
  simp only [LzwLib.id_for_string]
  cases hm : mapLookup lib.string_id_map (pyNormalize s) with
  | some sid =>
    exact ⟨⟨[], by simp [dictAfter]⟩, fun h => by simpa [dictAfter] using h,
           fun _ => by simp [dictAfter]⟩
  | none =>
    dsimp only
    have hext : ∃ new,
        loopDict (encodeLoop lib.dict lib.code_width [] 0 (pyNormalize s) 0) =
          lib.dict ++ new :=
      encodeLoopAux_dict_ext (pyNormalize s).length lib.dict
        lib.code_width [] 0 (pyNormalize s) 0
    have hcap : (lib.dict.length ≤ MAX_TABLE_ENTRY_COUNT →
        (loopDict (encodeLoop lib.dict lib.code_width [] 0 (pyNormalize s) 0)).length ≤
          MAX_TABLE_ENTRY_COUNT) ∧
        (MAX_TABLE_ENTRY_COUNT ≤ lib.dict.length →
          loopDict (encodeLoop lib.dict lib.code_width [] 0 (pyNormalize s) 0) =
            lib.dict) :=
      encodeLoopAux_capacity (pyNormalize s).length lib.dict
        lib.code_width [] 0 (pyNormalize s) 0
    cases he : encodeLoop lib.dict lib.code_width [] 0 (pyNormalize s) 0 with
    | error e =>
      obtain ⟨d2, w2⟩ := e
      rw [he] at hext hcap
      simp only [loopDict] at hext hcap
      exact ⟨by simpa [dictAfter] using hext,
             fun h => by simpa [dictAfter] using hcap.1 h,
             fun h => by simpa [dictAfter] using hcap.2 h⟩
    | ok v =>
      obtain ⟨d2, w2, buf, bp, cc⟩ := v
      rw [he] at hext hcap
      simp only [loopDict] at hext hcap
      exact ⟨by simpa [dictAfter] using hext,
             fun h => by simpa [dictAfter] using hcap.1 h,
             fun h => by simpa [dictAfter] using hcap.2 h⟩

/-- The record list never shrinks; a fresh successful call grows it by
at least the 5 header bytes. -/
theorem id_for_string_data_mono (lib : LzwLib) (s : List Char) :
    lib.data.length ≤ dataLenAfter (lib.id_for_string s) := by
  simp only [LzwLib.id_for_string]
  cases hm : mapLookup lib.string_id_map (pyNormalize s) with
  | some sid => simp [dataLenAfter]
  | none =>
    dsimp only
    cases he : encodeLoop lib.dict lib.code_width [] 0 (pyNormalize s) 0 with
    | error e =>
      obtain ⟨d2, w2⟩ := e
      simp [dataLenAfter]
    | ok v =>
      obtain ⟨d2, w2, buf, bp, cc⟩ := v
      simp [dataLenAfter]

/-- Memo lookup of a key just appended to a memo in which it was
absent. -/
theorem mapLookup_append_self (m : List (List Char × List Char)) (key v : List Char)
    (h : mapLookup m key = none) : mapLookup (m ++ [(key, v)]) key = some v := by
  induction m with
  | nil => simp [mapLookup]
  | cons kv rest ih =>
    obtain ⟨k, w⟩ := kv
    simp only [mapLookup] at h
    by_cases hk : k = key
    · rw [if_pos hk] at h
      exact absurd h (by simp)
    · rw [if_neg hk] at h
      simpa [mapLookup, if_neg hk] using ih h

/-- Equality of `Except` values is decidable componentwise (needed to
evaluate the concrete runs below). -/
instance instDecEqExcept {ε α : Type} [DecidableEq ε] [DecidableEq α] :
    DecidableEq (Except ε α) := fun a b =>
  match a, b with
  | .error x, .error y =>
    if h : x = y then .isTrue (by rw [h]) else .isFalse (fun hc => h (by cases hc; rfl))
  | .error _, .ok _ => .isFalse (fun hc => Except.noConfusion hc)
  | .ok _, .error _ => .isFalse (fun hc => Except.noConfusion hc)
  | .ok x, .ok y =>
    if h : x = y then .isTrue (by rw [h]) else .isFalse (fun hc => h (by cases hc; rfl))

/-- The 64 id characters are pairwise distinct. -/
theorem sidChars_inj :
    ∀ i < 64, ∀ j < 64,
      CHAR_TABLE_FOR_SID.getD i ' ' = CHAR_TABLE_FOR_SID.getD j ' ' → i = j := by decide

/-- Rendered ids are injective on the whole 18-bit range the three
6-bit groups cover (in particular on the 16-bit address space the design
targets). -/
theorem encodeSid_inj (x y : Nat) (hx : x < 262144) (hy : y < 262144)
    (h : encodeSid x = encodeSid y) : x = y := by
  simp only [encodeSid, List.cons.injEq, and_true] at h
  obtain ⟨h1, h2, h3⟩ := h
  have e1 := sidChars_inj (x % 64) (by omega) (y % 64) (by omega) h1
  have e2 := sidChars_inj (x / 64 % 64) (by omega) (y / 64 % 64) (by omega) h2
  have e3 := sidChars_inj (x / 4096 % 64) (by omega) (y / 4096 % 64) (by omega) h3
  omega

/-- Shape of a successful non-memoized call: the returned id renders the
offset `start_addr + 2 + len(data)`, the record list grows by at least
the 5 header bytes, and the address window is untouched. -/
theorem id_for_string_ok_shape (lib : LzwLib) (s : List Char) (lib' : LzwLib)
    (sid : List Char)
    (hm : mapLookup lib.string_id_map (pyNormalize s) = none)
    (h : lib.id_for_string s = .ok (lib', sid)) :
    sid = encodeSid (lib.start_addr + 2 + lib.data.length) ∧
    lib.data.length + 5 ≤ lib'.data.length ∧
    lib'.start_addr = lib.start_addr ∧
    lib'.end_addr = lib.end_addr := by
  simp only [LzwLib.id_for_string] at h
  rw [hm] at h
  dsimp only at h
  cases he : encodeLoop lib.dict lib.code_width [] 0 (pyNormalize s) 0 with
  | error e =>
    obtain ⟨d2, w2⟩ := e
    rw [he] at h
    exact absurd h (by simp)
  | ok v =>
    obtain ⟨d2, w2, buf, bp, cc⟩ := v
    rw [he] at h
    dsimp only at h
    simp only [Except.ok.injEq, Prod.mk.injEq] at h
    obtain ⟨hl, hs⟩ := h
    subst hl
    refine ⟨hs.symm, ?_, rfl, rfl⟩
    simp only [List.length_append, List.length_cons, List.length_nil]
    omega

/-! Concrete states used by the witnesses and counterexamples. -/

/-- The encoder after `LzwLib().id_for_string('ab')` (checked by the
kernel in the witnesses below). -/
def libAB : LzwLib :=
  { start_addr := 0
    end_addr := 0x4300
    string_id_map := [(['a', 'b'], encodeSid 2)]
    data := [2, 0, 63, 0, 7, 158, 15]
    dict := CHAR_TABLE.map (fun c => [c]) ++ [['a', 'b']]
    code_width := 7 }

/-- The encoder after a further `id_for_string('cd')`. -/
def libABCD : LzwLib :=
  { start_addr := 0
    end_addr := 0x4300
    string_id_map := [(['a', 'b'], encodeSid 2), (['c', 'd'], encodeSid 9)]
    data := [2, 0, 63, 0, 7, 158, 15, 2, 0, 64, 0, 7, 160, 16]
    dict := CHAR_TABLE.map (fun c => [c]) ++ [['a', 'b'], ['c', 'd']]
    code_width := 7 }

/-- An encoder whose shared dictionary is at the capacity bound. -/
def libFull : LzwLib :=
  { start_addr := 0
    end_addr := 0x4300
    string_id_map := []
    data := []
    dict := List.replicate MAX_TABLE_ENTRY_COUNT ['a']
    code_width := 12 }

/-- `as_bytes()` of the single-string corpus `['ab']`. -/
def bytesAB : List Nat := [1, 0, 2, 0, 63, 0, 7, 158, 15]

/-- C9 (amended): a fresh encoder's shared dictionary holds exactly the
63 single-character entries of `CHAR_TABLE`, entry `i` carrying code
`i` (codes 0..62); the padding character `@` is used only for id
rendering and is not a dictionary entry. -/
theorem c9_dict_init (a b : Nat) :
    (LzwLib.init a b).dict = CHAR_TABLE.map (fun c => [c]) ∧
    (LzwLib.init a b).dict.length = 63 ∧
    CHAR_TABLE.length = 63 ∧
    (∀ i : Nat, (LzwLib.init a b).dict[i]? = (CHAR_TABLE[i]?).map (fun c => [c])) ∧
    ['@'] ∉ (LzwLib.init a b).dict := by
  have hd : (LzwLib.init a b).dict = CHAR_TABLE.map (fun c => [c]) := rfl
  refine ⟨hd, ?_, by decide, fun i => ?_, ?_⟩
  · rw [hd]; decide
  · rw [hd]; exact List.getElem?_map (fun c => [c]) CHAR_TABLE i
  · rw [hd]; decide

/-- C9 counterexample: the claim says the dictionary starts with N = 65
entries including the padding character; in the code it starts with 63
entries and the padding character `@` is absent. -/
theorem c9_counterexample :
    lzwDefault.dict.length = 63 ∧ ¬ lzwDefault.dict.length = 65 ∧
    ['@'] ∉ lzwDefault.dict := by
  exact ⟨by decide, by decide, by decide⟩

/-- C7: `as_bytes` fails with `TooMuchDataError` carrying the total
length and the window exactly when the serialized length (2-byte count
prefix + records) exceeds `end_addr - start_addr`; otherwise it returns
the count prefix followed by the records, with no truncation (and, the
function being pure, the encoder state is unchanged and repeated calls
agree). -/
theorem c7_window_enforcement (lib : LzwLib) :
    (lib.end_addr - lib.start_addr < 2 + lib.data.length →
      lib.as_bytes = .error ⟨2 + lib.data.length, lib.start_addr, lib.end_addr⟩) ∧
    (2 + lib.data.length ≤ lib.end_addr - lib.start_addr →
      lib.as_bytes = .ok ([lib.string_id_map.length % 256,
                           lib.string_id_map.length / 256] ++ lib.data)) := by
  have hlen : ([lib.string_id_map.length % 256, lib.string_id_map.length / 256] ++
      lib.data).length = 2 + lib.data.length := by
    simp only [List.length_append, List.length_cons, List.length_nil]
  simp only [LzwLib.as_bytes]
  constructor
  · intro h
    rw [if_pos (by rw [hlen]; omega)]
    rw [hlen]
  · intro h
    rw [if_neg (by rw [hlen]; omega)]

/-- C7 witness: a window of size 0 rejects even an empty corpus with
the exact error value; the default window accepts it byte-exactly. -/
theorem c7_witness :
    (LzwLib.init 0 0).as_bytes = .error ⟨2, 0, 0⟩ ∧
    lzwDefault.as_bytes = .ok [0, 0] := by
  exact ⟨(c7_window_enforcement (LzwLib.init 0 0)).1 (by decide),
         (c7_window_enforcement lzwDefault).2 (by decide)⟩

/-- C4: a second `id_for_string` call whose argument normalizes to the
same string returns the identical id and the identical encoder state
(dictionary, code width, record list and memo all unchanged). -/
theorem c4_idempotent (lib : LzwLib) (s1 s2 : List Char) (lib2 : LzwLib) (sid : List Char)
    (hnorm : pyNormalize s2 = pyNormalize s1)
    (h : lib.id_for_string s1 = .ok (lib2, sid)) :
    lib2.id_for_string s2 = .ok (lib2, sid) := by
  simp only [LzwLib.id_for_string] at h ⊢
  rw [hnorm]
  cases hm : mapLookup lib.string_id_map (pyNormalize s1) with
  | some v =>
    rw [hm] at h
    dsimp only at h
    simp only [Except.ok.injEq, Prod.mk.injEq] at h
    obtain ⟨hl, hs⟩ := h
    subst hl
    subst hs
    rw [hm]
  | none =>
    rw [hm] at h
    dsimp only at h
    cases he : encodeLoop lib.dict lib.code_width [] 0 (pyNormalize s1) 0 with
    | error e =>
      obtain ⟨d2, w2⟩ := e
      rw [he] at h
      exact absurd h (by simp)
    | ok v =>
      obtain ⟨d2, w2, buf, bp, cc⟩ := v
      rw [he] at h
      dsimp only at h
      simp only [Except.ok.injEq, Prod.mk.injEq] at h
      obtain ⟨hl, hs⟩ := h
      subst hl
      subst hs
      dsimp only
      rw [mapLookup_append_self lib.string_id_map (pyNormalize s1) _ hm]

/-- C4 witness: `'AB'` and `'Ab'` normalize identically; the second call
returns the same id and the very same state. -/
theorem c4_witness :
    lzwDefault.id_for_string ['A', 'B'] = .ok (libAB, encodeSid 2) ∧
    libAB.id_for_string ['A', 'b'] = .ok (libAB, encodeSid 2) := by
  have h1 : lzwDefault.id_for_string ['A', 'B'] = .ok (libAB, encodeSid 2) := by decide
  exact ⟨h1, c4_idempotent lzwDefault ['A', 'B'] ['A', 'b'] libAB (encodeSid 2) (by decide) h1⟩

/-- C2: the code width starts at the fixed value 7; it never decreases
across `id_for_string` calls (successful or raising); one emitted code
changes it by at most 1, and by exactly 1 precisely when the step
inserted a new entry whose code (the entry count just before the
insertion) is `2 ^ width - 1`; and the packed bytes are exactly the
bit-packing of the emitted `(code, width-in-force-at-emission)` stream,
each code packed at the width holding before any increment its own
insertion triggers. -/
theorem c2_code_width_rules :
    (∀ a b, (LzwLib.init a b).code_width = 7 ∧ LZW_STARTING_WIDTH = 7) ∧
    (∀ (lib : LzwLib) (s : List Char), lib.code_width ≤ widthAfter (lib.id_for_string s)) ∧
    (∀ (dict : List (List Char)) (width : Nat) (rem : List Char) code d' w' k',
      lzwStep dict width rem = .ok (code, d', w', k') →
      (w' = width ∨ w' = width + 1) ∧
      (w' = width + 1 ↔ d'.length = dict.length + 1 ∧ dict.length = 2 ^ width - 1)) ∧
    (∀ dict width buf bp rem cc,
      encodeLoop dict width buf bp rem cc =
        match lzwCodes dict width rem with
        | .error e => .error e
        | .ok (codes, d2, w2) =>
          .ok (d2, w2, (packStream codes (buf, bp)).1, (packStream codes (buf, bp)).2,
               cc + codes.length)) :=
  ⟨fun _ _ => ⟨rfl, rfl⟩, id_for_string_width_mono,
   fun _ _ _ _ _ _ _ h => lzwStep_width h, encodeLoop_eq_codes⟩

/-- C2 witness: the concrete step that encodes the `'a'` of `'ab'`
inserts entry 63 (not `2 ^ 7 - 1 = 127`), so the width stays 7. -/
theorem c2_witness :
    lzwDefault.code_width ≤ widthAfter (lzwDefault.id_for_string ['a', 'b']) ∧
    ((7 = 7 ∨ 7 = 7 + 1) ∧
      (7 = 7 + 1 ↔ (CHAR_TABLE.map (fun c => [c]) ++ [['a', 'b']]).length =
        (CHAR_TABLE.map (fun c => [c])).length + 1 ∧
        (CHAR_TABLE.map (fun c => [c])).length = 2 ^ 7 - 1)) := by
  refine ⟨c2_code_width_rules.2.1 lzwDefault ['a', 'b'], ?_⟩
  exact c2_code_width_rules.2.2.1 (CHAR_TABLE.map (fun c => [c])) 7 ['a', 'b'] 30
    (CHAR_TABLE.map (fun c => [c]) ++ [['a', 'b']]) 7 1 (by decide)

/-- C3: the dictionary never grows past the capacity bound of 4096; at
the bound it is frozen (no call changes it); and `id_for_string` still
succeeds whenever every character of the normalized input has its
single-character entry in the dictionary — in particular at capacity,
when encoding proceeds against existing entries only. -/
theorem c3_capacity_ceiling :
    (∀ a b, (LzwLib.init a b).dict.length ≤ MAX_TABLE_ENTRY_COUNT) ∧
    (∀ (lib : LzwLib) (s : List Char), lib.dict.length ≤ MAX_TABLE_ENTRY_COUNT →
      (dictAfter (lib.id_for_string s)).length ≤ MAX_TABLE_ENTRY_COUNT) ∧
    (∀ (lib : LzwLib) (s : List Char), MAX_TABLE_ENTRY_COUNT ≤ lib.dict.length →
      dictAfter (lib.id_for_string s) = lib.dict) ∧
    (∀ (lib : LzwLib) (s : List Char), (∀ c ∈ pyNormalize s, [c] ∈ lib.dict) →
      ∃ (lib' : LzwLib) (sid : List Char), lib.id_for_string s = .ok (lib', sid)) := by
  refine ⟨?_, fun lib s h => (id_for_string_dict lib s).2.1 h,
          fun lib s h => (id_for_string_dict lib s).2.2 h, ?_⟩
  · intro a b
    have hd : (LzwLib.init a b).dict = CHAR_TABLE.map (fun c => [c]) := rfl
    rw [hd]
    decide
  · intro lib s hsing
    simp only [LzwLib.id_for_string]
    cases hm : mapLookup lib.string_id_map (pyNormalize s) with
    | some v => exact ⟨lib, v, rfl⟩
    | none =>
      dsimp only
      rcases encodeLoopAux_ok_of_singletons (pyNormalize s).length (pyNormalize s)
        lib.dict lib.code_width [] 0 0 (le_refl _) hsing with
        ⟨d2, w2, buf, bp, cc, hok⟩
      have hok' : encodeLoop lib.dict lib.code_width [] 0 (pyNormalize s) 0 =
          .ok (d2, w2, buf, bp, cc) := hok
      rw [hok']
      exact ⟨_, _, rfl⟩

/-- C3 witness: a dictionary at the 4096-entry bound stays at the bound
and unchanged, and an in-alphabet call still succeeds. -/
theorem c3_witness :
    (dictAfter (libFull.id_for_string ['a'])).length ≤ MAX_TABLE_ENTRY_COUNT ∧
    dictAfter (libFull.id_for_string ['a']) = libFull.dict ∧
    ∃ lib' sid, libFull.id_for_string ['a'] = .ok (lib', sid) := by
  have hlen : libFull.dict.length = MAX_TABLE_ENTRY_COUNT := by
    show (List.replicate MAX_TABLE_ENTRY_COUNT (['a'] : List Char)).length =
      MAX_TABLE_ENTRY_COUNT
    exact List.length_replicate _ _
  have hsing : ∀ c ∈ pyNormalize ['a'], [c] ∈ libFull.dict := by
    intro c hc
    have hn : pyNormalize ['a'] = ['a'] := rfl
    rw [hn] at hc
    have hc' : c = 'a' := by simpa using hc
    subst hc'
    show ['a'] ∈ List.replicate MAX_TABLE_ENTRY_COUNT (['a'] : List Char)
    rw [List.mem_replicate]
    exact ⟨by decide, rfl⟩
  exact ⟨c3_capacity_ceiling.2.1 libFull ['a'] (le_of_eq hlen),
         c3_capacity_ceiling.2.2.1 libFull ['a'] (le_of_eq hlen.symm),
         c3_capacity_ceiling.2.2.2 libFull ['a'] hsing⟩

/-- C5: a fresh successful call appends to the record list exactly one
`StringRecord`: little-endian u16 code count, little-endian u16
dictionary-size snapshot taken at the start of the call, the u8 code
width snapshot taken at the same moment, then the packed code bytes;
and `as_bytes` returns exactly the 2-byte little-endian count of
distinct strings followed by the records in assignment order. -/
theorem c5_record_layout :
    (∀ (lib : LzwLib) (s : List Char) codes (d2 : List (List Char)) (w2 : Nat),
      mapLookup lib.string_id_map (pyNormalize s) = none →
      lzwCodes lib.dict lib.code_width (pyNormalize s) = .ok (codes, d2, w2) →
      ∃ (lib' : LzwLib) (sid : List Char), lib.id_for_string s = .ok (lib', sid) ∧
        lib'.data = lib.data ++
          recordBytes ⟨codes.length, lib.dict.length, lib.code_width,
                       (packStream codes ([], 0)).1⟩) ∧
    (∀ (lib : LzwLib) (d : List Nat), lib.as_bytes = .ok d →
      d = [lib.string_id_map.length % 256, lib.string_id_map.length / 256] ++
        lib.data) := by
  constructor
  · intro lib s codes d2 w2 hm hc
    exact ⟨_, _, id_for_string_fresh lib s codes d2 w2 hm hc, rfl⟩
  · intro lib d h
    simp only [LzwLib.as_bytes] at h
    split at h
    · exact absurd h (by simp)
    · simp only [Except.ok.injEq] at h
      exact h.symm

/-- C5 witness: encoding `'ab'` on a fresh encoder appends the record
`[2, 0, 63, 0, 7, 158, 15]` — 2 codes, snapshot 63, width 7, then the
two packed bytes. -/
theorem c5_witness :
    ∃ (lib' : LzwLib) (sid : List Char),
      lzwDefault.id_for_string ['a', 'b'] = .ok (lib', sid) ∧
      lib'.data = lzwDefault.data ++ recordBytes ⟨2, 63, 7, [158, 15]⟩ := by
  have hc : lzwCodes lzwDefault.dict lzwDefault.code_width (pyNormalize ['a', 'b']) =
      .ok ([(30, 7), (31, 7)], CHAR_TABLE.map (fun c => [c]) ++ [['a', 'b']], 7) := by
    decide
  rcases c5_record_layout.1 lzwDefault ['a', 'b'] [(30, 7), (31, 7)]
    (CHAR_TABLE.map (fun c => [c]) ++ [['a', 'b']]) 7 (by decide) hc with
    ⟨lib', sid, h1, h2⟩
  exact ⟨lib', sid, h1, h2⟩

/-- C6: the id returned for a fresh string renders the numeric offset
`start_addr + 2 + cumulative length of the prior records` as three
6-bit characters of the padded table, least-significant group first;
the record list grows by at least 5 bytes per fresh string and never
shrinks, the rendering is injective on the 18-bit range (which covers
the 16-bit address space of the design), and hence two distinct
normalized strings assigned in sequence within the address space never
share a rendered id. -/
theorem c6_identifier :
    (∀ n : Nat, (encodeSid n).length = 3 ∧
      encodeSid n = [CHAR_TABLE_FOR_SID.getD (n % 64) ' ',
                     CHAR_TABLE_FOR_SID.getD (n / 64 % 64) ' ',
                     CHAR_TABLE_FOR_SID.getD (n / 4096 % 64) ' ']) ∧
    (∀ (lib : LzwLib) (s : List Char) (lib' : LzwLib) (sid : List Char),
      mapLookup lib.string_id_map (pyNormalize s) = none →
      lib.id_for_string s = .ok (lib', sid) →
      sid = encodeSid (lib.start_addr + 2 + lib.data.length) ∧
      lib.data.length + 5 ≤ lib'.data.length ∧ lib'.start_addr = lib.start_addr) ∧
    (∀ x y : Nat, x < 262144 → y < 262144 → x ≠ y → encodeSid x ≠ encodeSid y) ∧
    (∀ (lib : LzwLib) (s : List Char),
      lib.data.length ≤ dataLenAfter (lib.id_for_string s)) ∧
    (∀ (lib : LzwLib) (s1 s2 : List Char) (lib1 : LzwLib) (sid1 : List Char)
       (lib2 : LzwLib) (sid2 : List Char),
      mapLookup lib.string_id_map (pyNormalize s1) = none →
      lib.id_for_string s1 = .ok (lib1, sid1) →
      mapLookup lib1.string_id_map (pyNormalize s2) = none →
      lib1.id_for_string s2 = .ok (lib2, sid2) →
      lib1.start_addr + 2 + lib1.data.length < 262144 →
      sid1 ≠ sid2) := by
  refine ⟨fun n => ⟨rfl, rfl⟩,
          fun lib s lib' sid hm h =>
            ⟨(id_for_string_ok_shape lib s lib' sid hm h).1,
             (id_for_string_ok_shape lib s lib' sid hm h).2.1,
             (id_for_string_ok_shape lib s lib' sid hm h).2.2.1⟩,
          fun x y hx hy hne heq => hne (encodeSid_inj x y hx hy heq),
          id_for_string_data_mono, ?_⟩
  intro lib s1 s2 lib1 sid1 lib2 sid2 hm1 h1 hm2 h2 hbound
  obtain ⟨hsid1, hgrow1, hstart1, -⟩ := id_for_string_ok_shape lib s1 lib1 sid1 hm1 h1
  obtain ⟨hsid2, -, -, -⟩ := id_for_string_ok_shape lib1 s2 lib2 sid2 hm2 h2
  subst hsid1
  subst hsid2
  intro heq
  have ho := encodeSid_inj (lib.start_addr + 2 + lib.data.length)
    (lib1.start_addr + 2 + lib1.data.length) (by omega) hbound heq
  omega

/-- C6 witness: the ids of `'ab'` (offset 2) and `'cd'` (offset 9) in
one instance differ. -/
theorem c6_witness : encodeSid 2 ≠ encodeSid 9 := by
  have h1 : lzwDefault.id_for_string ['a', 'b'] = .ok (libAB, encodeSid 2) := by decide
  have h2 : libAB.id_for_string ['c', 'd'] = .ok (libABCD, encodeSid 9) := by decide
  exact c6_identifier.2.2.2.2 lzwDefault ['a', 'b'] ['c', 'd'] libAB (encodeSid 2)
    libABCD (encodeSid 9) (by decide) h1 (by decide) h2 (by decide)

/-- Reading an appended list at an offset past the first part. -/
theorem getD_append_offset (l1 l2 : List (List Char)) (i : Nat) :
    (l1 ++ l2).getD (l1.length + i) [] = l2.getD i [] := by
  induction l1 with
  | nil => simp
  | cons e rest ih =>
    simpa [Nat.succ_add] using ih

/-- C10 (amended): on every successful `id_for_string` call, each entry
the call added to the shared dictionary has length at least 2, its
prefix obtained by dropping the last character was already present in
the dictionary at the moment of insertion, and the entries sit at the
consecutive positions following the pre-existing entries (their codes
are consecutive, starting at the dictionary size before the call —
the alphabet size on a fresh encoder). -/
theorem c10_inserted_entries (lib : LzwLib) (s : List Char) (lib' : LzwLib)
    (sid : List Char)
    (h : lib.id_for_string s = .ok (lib', sid)) :
    ∃ new, lib'.dict = lib.dict ++ new ∧
      ∀ i, i < new.length →
        2 ≤ (new.getD i []).length ∧
        (new.getD i []).dropLast ∈ lib.dict ++ new.take i ∧
        lib'.dict.getD (lib.dict.length + i) [] = new.getD i [] := by
  simp only [LzwLib.id_for_string] at h
  cases hm : mapLookup lib.string_id_map (pyNormalize s) with
  | some v =>
    rw [hm] at h
    dsimp only at h
    simp only [Except.ok.injEq, Prod.mk.injEq] at h
    obtain ⟨hl, -⟩ := h
    subst hl
    exact ⟨[], by simp, by simp⟩
  | none =>
    rw [hm] at h
    dsimp only at h
    cases he : encodeLoop lib.dict lib.code_width [] 0 (pyNormalize s) 0 with
    | error e =>
      obtain ⟨d2, w2⟩ := e
      rw [he] at h
      exact absurd h (by simp)
    | ok v =>
      obtain ⟨d2, w2, buf, bp, cc⟩ := v
      rw [he] at h
      dsimp only at h
      simp only [Except.ok.injEq, Prod.mk.injEq] at h
      obtain ⟨hl, -⟩ := h
      subst hl
      have he' : encodeLoopAux (pyNormalize s).length lib.dict lib.code_width [] 0
          (pyNormalize s) 0 = .ok (d2, w2, buf, bp, cc) := he
      rcases encodeLoopAux_new_entries (pyNormalize s).length (pyNormalize s) lib.dict
        lib.code_width [] 0 0 d2 w2 buf bp cc he' with ⟨new, hnew, hprops⟩
      refine ⟨new, hnew, fun i hi => ?_⟩
      rcases hprops i hi with ⟨h1, h2⟩
      refine ⟨h1, h2, ?_⟩
      dsimp only
      rw [hnew]
      exact getD_append_offset lib.dict new i

/-- C10 counterexample: the failing call on `'$'` (a character outside
the alphabet) inserts the one-character entry `'$'` into the shared
dictionary; that entry has length 1 and its dropLast, the empty string,
is not a dictionary key. -/
theorem c10_counterexample :
    dictAfter (lzwDefault.id_for_string ['$']) = lzwDefault.dict ++ [['$']] ∧
    ¬ 2 ≤ ((dictAfter (lzwDefault.id_for_string ['$'])).getD 63 []).length ∧
    ((dictAfter (lzwDefault.id_for_string ['$'])).getD 63 []).dropLast ∉
      lzwDefault.dict := by
  exact ⟨by decide, by decide, by decide⟩

/-- C10 witness: encoding `'ab'` on a fresh encoder adds exactly the
entry `'ab'` — length 2, prefix `'a'` already present, appended at
position 63 (the alphabet size). -/
theorem c10_witness :
    ∃ new, libAB.dict = lzwDefault.dict ++ new ∧
      ∀ i, i < new.length →
        2 ≤ (new.getD i []).length ∧
        (new.getD i []).dropLast ∈ lzwDefault.dict ++ new.take i ∧
        libAB.dict.getD (lzwDefault.dict.length + i) [] = new.getD i [] :=
  c10_inserted_entries lzwDefault ['a', 'b'] libAB (encodeSid 2) (by decide)

/-- C8 (code bug): on an input containing a character outside the
alphabet, `id_for_string` does not raise `CharOutOfRange` — it inserts
the out-of-alphabet character into the shared dictionary and then
raises `KeyError` from the empty-slice lookup, leaving the dictionary
mutated.  `encode_pscii`, the alphabet codec the claim describes (which
`id_for_string` never calls), does raise `CharOutOfRange` with the
offending character and its position. -/
theorem c8_keyerror_on_bad_char :
    lzwDefault.id_for_string ['$'] =
      .error { lzwDefault with dict := lzwDefault.dict ++ [['$']] } ∧
    dictAfter (lzwDefault.id_for_string ['$']) ≠ lzwDefault.dict ∧
    encode_pscii ['$'] = .error ('$', 0) := by
  exact ⟨by decide, by decide, by decide⟩

/-- C1 (code bug): the encoder produces the corpus bytes for `'ab'`,
but Phase 1 of the companion decoder, as written, aborts with a Lua
runtime error on the second code of the record — the capacity check
reads `tl.mt`, a typo for `_tl.mt`, and the global `tl` is nil.  With
that one name fixed (`tl_mt = some 4096`), the bootstrap reconstructs
the dictionary entry `'ab'` and Phase 2 decodes the id back to exactly
the normalized input. -/
theorem c1_phase1_bootstrap_crashes :
    lzwDefault.id_for_string ['a', 'b'] = .ok (libAB, encodeSid 2) ∧
    libAB.as_bytes = .ok bytesAB ∧
    luaBootstrap CHAR_TABLE none bytesAB 0 LZW_STARTING_WIDTH =
      .error "attempt to index a nil value (global tl)" ∧
    luaBootstrap CHAR_TABLE (some MAX_TABLE_ENTRY_COUNT) bytesAB 0 LZW_STARTING_WIDTH =
      .ok ([['a', 'b']], 7) ∧
    luaDecodeSid CHAR_TABLE [['a', 'b']] bytesAB (encodeSid 2) = .ok ['a', 'b'] := by
  exact ⟨by decide, by decide, by decide, by decide, by decide⟩
